import Mathlib

/-!
Verification of the streaming-buffer core of the `remu-audio` playback engine.

The development shallowly embeds the relevant Rust code:

* `src/reader/mutex_vec_bytes.rs` — `MVecBytesWrapper` (a chunked append-only
  byte buffer) and `MVecBytesReader` (a blocking, seekable reader over it);
* `src/reader/mutex_vec_u8.rs` — `MVecU8Reader::seek`;
* `src/player.rs` — the `Player` state flags, event emission, `clear`,
  `load`, `play`/`pause`, and the end-of-playback sentinel closure;
* `src/loader/downloader.rs` — the `download()` double-call guard.

Bytes are modelled as `Nat`, byte buffers as `List Nat`, and the chunk list
`Vec<Bytes>` as `List (List Nat)`.  `usize`/`u64` arithmetic that cannot
overflow in the modelled paths is carried out on `Nat`; the one place where
wrap-around matters (`seek` with `SeekFrom::Current`) models the
`u64 -> i64` cast, the wrapping `i64` addition and the `i64 -> u64` cast
explicitly.  Code paths that block on the condition variable and code paths
that panic (out-of-range slice indexing, `usize` subtraction overflow) are
distinguished constructors of the result types.
-/

namespace RemuAudio

/-! ## The chunked buffer: `MVecBytesWrapper` (src/reader/mutex_vec_bytes.rs) -/

/-- State of `MVecBytesWrapper`: the frozen chunk list `data: Vec<Bytes>`, the
`completed: AtomicBool` flag, the configured `chunk_size`, and the mutable
tail `current_chunk: BytesMut`. -/
structure MVecBytesWrapper where
  data : List (List Nat)
  completed : Bool
  chunkSize : Nat
  currentChunk : List Nat
deriving DecidableEq

/-- `MVecBytesWrapper::new(chunk_size)`: empty chunk list, not completed,
empty tail. -/
def MVecBytesWrapper.new (chunkSize : Nat) : MVecBytesWrapper :=
  { data := [], completed := false, chunkSize := chunkSize, currentChunk := [] }

/-- The loop `while offset + self.chunk_size <= slice.len()` of
`MVecBytesWrapper::append_data`, which splits a byte slice into maximal full
chunks of `cs` bytes plus a remainder shorter than `cs`.  The loop consumes at
least one byte per iteration (for `0 < cs`), so `l.length` iterations of fuel
always suffice; with zero fuel or `cs = 0` the split degenerates (the Rust
loop would not terminate for `cs = 0`, a case excluded by every theorem
below). -/
def chunkifyAux (fuel cs : Nat) (l : List Nat) : List (List Nat) × List Nat :=
  match fuel with
  | 0 => ([], l)
  | fuel + 1 =>
    if cs = 0 ∨ l.length < cs then ([], l)
    else
      let r := chunkifyAux fuel cs (l.drop cs)
      (l.take cs :: r.1, r.2)

/-- Splitting a slice into full `cs`-chunks plus remainder. -/
def chunkify (cs : Nat) (l : List Nat) : List (List Nat) × List Nat :=
  chunkifyAux l.length cs l

/-- `MVecBytesWrapper::append_data` (src/reader/mutex_vec_bytes.rs lines
39-98).  Case 1: the slice fits into the current tail (freeze the tail when it
reaches exactly `chunk_size`).  Case 2: top up the tail to a full chunk (when
non-empty), split the rest of the slice into full chunks, and keep the final
remainder as the new tail.  No-op once `completed` is set. -/
def MVecBytesWrapper.append_data (s : MVecBytesWrapper) (slice : List Nat) :
    MVecBytesWrapper :=
  if s.completed then s
  else
    let ccl := s.currentChunk.length
    if ccl + slice.length ≤ s.chunkSize then
      let cc := s.currentChunk ++ slice
      if cc.length = s.chunkSize then
        { s with data := s.data ++ [cc], currentChunk := [] }
      else
        { s with currentChunk := cc }
    else
      if ccl ≠ 0 then
        let fpl := s.chunkSize - ccl
        let first := s.currentChunk ++ slice.take fpl
        let r := chunkify s.chunkSize (slice.drop fpl)
        { s with data := s.data ++ first :: r.1, currentChunk := r.2 }
      else
        let r := chunkify s.chunkSize slice
        { s with data := s.data ++ r.1, currentChunk := r.2 }

/-- `MVecBytesWrapper::complete` (lines 99-108): freeze a non-empty tail,
then set `completed`. -/
def MVecBytesWrapper.complete (s : MVecBytesWrapper) : MVecBytesWrapper :=
  if 0 < s.currentChunk.length then
    { s with data := s.data ++ [s.currentChunk], currentChunk := [],
             completed := true }
  else
    { s with completed := true }

/-- An operation on the wrapper, for reasoning about arbitrary interleavings
of `append_data` and `complete`. -/
inductive WrapperOp where
  | append (slice : List Nat)
  | complete
deriving DecidableEq

def applyOp (s : MVecBytesWrapper) : WrapperOp → MVecBytesWrapper
  | .append slice => s.append_data slice
  | .complete => s.complete

/-- Run a sequence of operations from a fresh wrapper with the given
`chunk_size`. -/
def runOps (cs : Nat) (ops : List WrapperOp) : MVecBytesWrapper :=
  ops.foldl applyOp (MVecBytesWrapper.new cs)

/-! ### Chunkify specification -/

theorem chunkifyAux_spec (cs : Nat) (hcs : 0 < cs) :
    ∀ (fuel : Nat) (l : List Nat), l.length ≤ fuel →
      (chunkifyAux fuel cs l).1.flatten ++ (chunkifyAux fuel cs l).2 = l ∧
      (∀ c ∈ (chunkifyAux fuel cs l).1, c.length = cs) ∧
      (chunkifyAux fuel cs l).2.length < cs := by
  intro fuel
  induction fuel with
  | zero =>
    intro l hl
    have : l = [] := List.length_eq_zero.mp (Nat.le_zero.mp hl)
    subst this
    simp [chunkifyAux, hcs]
  | succ fuel ih =>
    intro l hl
    by_cases hsplit : cs = 0 ∨ l.length < cs
    · rcases hsplit with h0 | hlt
      · omega
      · simp [chunkifyAux, hlt, *]
    · push_neg at hsplit
      obtain ⟨-, hge⟩ := hsplit
      have hdrop : (l.drop cs).length ≤ fuel := by
        simp only [List.length_drop]; omega
      obtain ⟨hflat, hfull, hrem⟩ := ih (l.drop cs) hdrop
      have hne : ¬(cs = 0 ∨ l.length < cs) := by omega
      refine ⟨?_, ?_, ?_⟩
      · simp only [chunkifyAux, hne, if_false, List.flatten_cons,
          List.append_assoc, hflat]
        exact List.take_append_drop cs l
      · intro c hc
        simp only [chunkifyAux, hne, if_false, List.mem_cons] at hc
        rcases hc with rfl | hc
        · simpa using Nat.min_eq_left hge
        · exact hfull c hc
      · simpa only [chunkifyAux, hne, if_false] using hrem

theorem chunkify_spec (cs : Nat) (hcs : 0 < cs) (l : List Nat) :
    (chunkify cs l).1.flatten ++ (chunkify cs l).2 = l ∧
    (∀ c ∈ (chunkify cs l).1, c.length = cs) ∧
    (chunkify cs l).2.length < cs :=
  chunkifyAux_spec cs hcs l.length l le_rfl

/-! ### The wrapper invariant -/

/-- Invariant maintained by every interleaving of `append_data` and
`complete` on a fresh wrapper: the chunk size is positive and fixed, every
frozen chunk fits in `chunk_size`, while downloading (`completed = false`)
every frozen chunk is exactly full and the tail is strictly short, and once
completed the tail has been frozen away. -/
def WrapperInv (cs : Nat) (s : MVecBytesWrapper) : Prop :=
  0 < cs ∧ s.chunkSize = cs ∧
  (∀ c ∈ s.data.dropLast, c.length = cs) ∧
  (∀ c ∈ s.data, c.length ≤ cs) ∧
  (s.completed = false → ∀ c ∈ s.data, c.length = cs) ∧
  (s.completed = false → s.currentChunk.length < cs) ∧
  (s.completed = true → s.currentChunk = [])

theorem wrapperInv_new (cs : Nat) (hcs : 0 < cs) :
    WrapperInv cs (MVecBytesWrapper.new cs) := by
  refine ⟨hcs, rfl, ?_, ?_, ?_, ?_, ?_⟩ <;> simp [MVecBytesWrapper.new, hcs]

theorem wrapperInv_append (cs : Nat) (s : MVecBytesWrapper) (slice : List Nat)
    (h : WrapperInv cs s) : WrapperInv cs (s.append_data slice) := by
  obtain ⟨hcs, hsz, hlast, hle, hfull, hcur, hdone⟩ := h
  unfold MVecBytesWrapper.append_data
  dsimp only
  split_ifs with hc h1 h2 hne
  · exact ⟨hcs, hsz, hlast, hle, hfull, hcur, hdone⟩
  all_goals have hcf : s.completed = false := by simpa using hc
  all_goals have hcur' := hcur hcf
  all_goals have hfull' := hfull hcf
  · -- the tail reaches exactly chunk_size: freeze it
    refine ⟨hcs, hsz, ?_, ?_, ?_, ?_, ?_⟩
    · intro c hcmem
      simp only [List.dropLast_concat] at hcmem
      exact hfull' c hcmem
    · intro c hcmem
      simp only [List.mem_append, List.mem_singleton] at hcmem
      rcases hcmem with hd | rfl
      · exact le_of_eq (hfull' c hd)
      · omega
    · intro _ c hcmem
      simp only [List.mem_append, List.mem_singleton] at hcmem
      rcases hcmem with hd | rfl
      · exact hfull' c hd
      · omega
    · intro _
      simpa using hcs
    · intro habs
      simp [hcf] at habs
  · -- the tail grows but stays short
    refine ⟨hcs, hsz, hlast, hle, hfull, ?_, ?_⟩
    · intro _
      simp only [List.length_append] at h2 ⊢
      omega
    · intro habs
      simp [hcf] at habs
  · -- case 2 with a non-empty tail: top up, split, keep remainder
    obtain ⟨cflat, cfull, crem⟩ :=
      chunkify_spec s.chunkSize (hsz ▸ hcs)
        (slice.drop (s.chunkSize - s.currentChunk.length))
    have hall : ∀ c ∈ s.data ++ (s.currentChunk ++
        slice.take (s.chunkSize - s.currentChunk.length)) ::
        (chunkify s.chunkSize
          (slice.drop (s.chunkSize - s.currentChunk.length))).1,
        c.length = cs := by
      intro c hcmem
      rcases List.mem_append.mp hcmem with hd | hrest
      · exact hfull' c hd
      · rcases List.mem_cons.mp hrest with rfl | hm
        · simp only [List.length_append, List.length_take]
          omega
        · have := cfull c hm
          omega
    refine ⟨hcs, hsz, ?_, ?_, ?_, ?_, ?_⟩
    · intro c hcmem
      exact hall c (List.dropLast_subset _ hcmem)
    · intro c hcmem
      exact le_of_eq (hall c hcmem)
    · intro _ c hcmem
      exact hall c hcmem
    · intro _
      dsimp only
      omega
    · intro habs
      simp [hcf] at habs
  · -- case 2 with an empty tail: split the slice directly
    obtain ⟨cflat, cfull, crem⟩ :=
      chunkify_spec s.chunkSize (hsz ▸ hcs) slice
    have hall : ∀ c ∈ s.data ++ (chunkify s.chunkSize slice).1,
        c.length = cs := by
      intro c hcmem
      rcases List.mem_append.mp hcmem with hd | hm
      · exact hfull' c hd
      · have := cfull c hm
        omega
    refine ⟨hcs, hsz, ?_, ?_, ?_, ?_, ?_⟩
    · intro c hcmem
      exact hall c (List.dropLast_subset _ hcmem)
    · intro c hcmem
      exact le_of_eq (hall c hcmem)
    · intro _ c hcmem
      exact hall c hcmem
    · intro _
      dsimp only
      omega
    · intro habs
      simp [hcf] at habs

theorem wrapperInv_complete (cs : Nat) (s : MVecBytesWrapper)
    (h : WrapperInv cs s) : WrapperInv cs s.complete := by
  obtain ⟨hcs, hsz, hlast, hle, hfull, hcur, hdone⟩ := h
  unfold MVecBytesWrapper.complete
  by_cases hne : 0 < s.currentChunk.length
  · have hcf : s.completed = false := by
      by_contra hc
      have : s.completed = true := by simpa using hc
      have := hdone this
      simp [this] at hne
    have hfull' := hfull hcf
    have hcur' := hcur hcf
    simp only [hne, if_true]
    refine ⟨hcs, hsz, ?_, ?_, ?_, ?_, ?_⟩
    · intro c hcmem
      rw [List.dropLast_concat] at hcmem
      exact hfull' c hcmem
    · intro c hcmem
      simp only [List.mem_append, List.mem_singleton] at hcmem
      rcases hcmem with hd | rfl
      · exact hle c hd
      · omega
    · intro habs
      simp at habs
    · intro habs
      simp at habs
    · intro _
      rfl
  · simp only [hne, if_false]
    refine ⟨hcs, hsz, hlast, hle, ?_, ?_, ?_⟩
    · intro habs
      simp at habs
    · intro habs
      simp at habs
    · intro _
      simpa using List.length_eq_zero.mp (by omega)

theorem wrapperInv_runOps (cs : Nat) (hcs : 0 < cs) (ops : List WrapperOp) :
    WrapperInv cs (runOps cs ops) := by
  suffices h : ∀ (s : MVecBytesWrapper), WrapperInv cs s →
      WrapperInv cs (ops.foldl applyOp s) from
    h _ (wrapperInv_new cs hcs)
  induction ops with
  | nil => intro s hs; simpa using hs
  | cons op rest ih =>
    intro s hs
    simp only [List.foldl_cons]
    refine ih _ ?_
    cases op with
    | append slice => exact wrapperInv_append cs s slice hs
    | complete => exact wrapperInv_complete cs s hs

/-! ### The chunking law (append…append, complete) -/

/-- Invariant of the pure append phase (no `complete` yet): `total` is the
concatenation of all slices appended so far, and it is held as the frozen
chunks followed by the tail; all frozen chunks are exactly full and the tail
is strictly short. -/
def AppendPhase (cs : Nat) (total : List Nat) (s : MVecBytesWrapper) : Prop :=
  s.completed = false ∧ s.chunkSize = cs ∧
  s.data.flatten ++ s.currentChunk = total ∧
  (∀ c ∈ s.data, c.length = cs) ∧
  s.currentChunk.length < cs

theorem appendPhase_new (cs : Nat) (hcs : 0 < cs) :
    AppendPhase cs [] (MVecBytesWrapper.new cs) := by
  refine ⟨rfl, rfl, ?_, ?_, ?_⟩ <;> simp [MVecBytesWrapper.new, hcs]

theorem appendPhase_append (cs : Nat) (total : List Nat) (s : MVecBytesWrapper)
    (slice : List Nat) (h : AppendPhase cs total s) :
    AppendPhase cs (total ++ slice) (s.append_data slice) := by
  obtain ⟨hcomp, hsz, hflat, hfull, hcur⟩ := h
  have hcs : 0 < cs := Nat.lt_of_le_of_lt (Nat.zero_le _) hcur
  unfold MVecBytesWrapper.append_data
  dsimp only
  split_ifs with hc h1 h2 hne
  · rw [hcomp] at hc
    exact absurd hc (by decide)
  · -- the tail reaches exactly chunk_size: freeze it
    refine ⟨hcomp, hsz, ?_, ?_, ?_⟩
    · simp only [List.flatten_append, List.flatten_cons, List.flatten_nil,
        List.append_nil, List.append_assoc, ← hflat]
    · intro c hcmem
      rcases List.mem_append.mp hcmem with hd | hlone
      · exact hfull c hd
      · rw [List.mem_singleton.mp hlone]
        simp only [List.length_append] at h2 ⊢
        omega
    · simpa using hcs
  · -- the tail grows but stays short
    refine ⟨hcomp, hsz, ?_, ?_, ?_⟩
    · simpa [List.append_assoc] using congrArg (fun l => l ++ slice) hflat
    · exact hfull
    · simp only [List.length_append] at h2 ⊢
      omega
  · -- case 2, non-empty tail: top up to a full chunk, split the rest
    obtain ⟨cflat, cfull, crem⟩ :=
      chunkify_spec s.chunkSize (hsz ▸ hcs)
        (slice.drop (s.chunkSize - s.currentChunk.length))
    refine ⟨hcomp, hsz, ?_, ?_, ?_⟩
    · dsimp only
      simp only [List.flatten_append, List.flatten_cons, List.append_assoc]
      rw [cflat, List.take_append_drop, ← hflat, List.append_assoc]
    · intro c hcmem
      rcases List.mem_append.mp hcmem with hd | hrest
      · exact hfull c hd
      · rcases List.mem_cons.mp hrest with rfl | hm
        · simp only [List.length_append, List.length_take]
          omega
        · exact hsz ▸ cfull c hm
    · dsimp only
      omega
  · -- case 2, empty tail: split the slice directly
    obtain ⟨cflat, cfull, crem⟩ := chunkify_spec s.chunkSize (hsz ▸ hcs) slice
    have hccnil : s.currentChunk = [] := by
      simpa using List.length_eq_zero.mp (by omega)
    refine ⟨hcomp, hsz, ?_, ?_, ?_⟩
    · dsimp only
      have hflat2 : s.data.flatten = total := by simpa [hccnil] using hflat
      simp only [List.flatten_append, List.append_assoc, cflat, hflat2]
    · intro c hcmem
      rcases List.mem_append.mp hcmem with hd | hm
      · exact hfull c hd
      · exact hsz ▸ cfull c hm
    · dsimp only
      omega

/-- A sequence of `append_data` calls followed by one `complete`, from a
fresh wrapper. -/
def appendAll (cs : Nat) (slices : List (List Nat)) : MVecBytesWrapper :=
  (slices.foldl MVecBytesWrapper.append_data (MVecBytesWrapper.new cs)).complete

/-- C3.  Chunking law: after appending any sequence of slices and then
completing, the concatenation of the frozen chunks equals the concatenation
of the appended slices, and every chunk except possibly the last has length
exactly `chunk_size`. -/
theorem append_complete_chunking_law (cs : Nat) (slices : List (List Nat))
    (hcs : 0 < cs) :
    (appendAll cs slices).data.flatten = slices.flatten ∧
    ∀ c ∈ (appendAll cs slices).data.dropLast, c.length = cs := by
  have hphase : ∀ (sl : List (List Nat)) (s : MVecBytesWrapper)
      (t : List Nat), AppendPhase cs t s →
      AppendPhase cs (t ++ sl.flatten)
        (sl.foldl MVecBytesWrapper.append_data s) := by
    intro sl
    induction sl with
    | nil => intro s t h; simpa using h
    | cons a rest ih =>
      intro s t h
      have h2 := ih (s.append_data a) (t ++ a) (appendPhase_append cs t s a h)
      simpa [List.append_assoc] using h2
  obtain ⟨hcomp, hsz, hflat, hfull, hcur⟩ :=
    hphase slices (MVecBytesWrapper.new cs) [] (appendPhase_new cs hcs)
  simp only [List.nil_append] at hflat
  unfold appendAll MVecBytesWrapper.complete
  split_ifs with htail
  · constructor
    · simpa using hflat
    · intro c hcmem
      simp only [List.dropLast_concat] at hcmem
      exact hfull c hcmem
  · constructor
    · have : (slices.foldl MVecBytesWrapper.append_data
          (MVecBytesWrapper.new cs)).currentChunk = [] := by
        simpa using List.length_eq_zero.mp (by omega)
      simpa [this] using hflat
    · intro c hcmem
      exact hfull c (List.dropLast_subset _ hcmem)

/-- Witness for C3 at `chunk_size = 2`, slices `[1,2,3]` then `[4]`. -/
theorem append_complete_chunking_law_witness :
    (appendAll 2 [[1, 2, 3], [4]]).data.flatten
        = ([[1, 2, 3], [4]] : List (List Nat)).flatten ∧
    ∀ c ∈ (appendAll 2 [[1, 2, 3], [4]]).data.dropLast, c.length = 2 :=
  append_complete_chunking_law 2 [[1, 2, 3], [4]] (by decide)

/-! ### Only the last chunk may be short (C4) -/

/-- C4 amended.  After any interleaving of `append_data` and `complete`
operations on a fresh wrapper with positive `chunk_size`: every chunk except
possibly the last has length exactly `chunk_size`, and if the last chunk is
strictly shorter than `chunk_size` then `completed` is true.  (The converse
direction of the claimed iff is false, see the counterexample: completing a
stream whose length is an exact multiple of `chunk_size` sets `completed`
while every chunk, the last included, is exactly full.) -/
theorem runOps_only_last_short (cs : Nat) (ops : List WrapperOp)
    (hcs : 0 < cs) :
    (∀ c ∈ (runOps cs ops).data.dropLast, c.length = cs) ∧
    ((runOps cs ops).data ≠ [] →
      ((runOps cs ops).data.getLast?.getD []).length < cs →
      (runOps cs ops).completed = true) := by
  obtain ⟨-, -, hlast, -, hfull, -, -⟩ := wrapperInv_runOps cs hcs ops
  refine ⟨hlast, ?_⟩
  intro hne hshort
  by_contra hc
  have hcf : (runOps cs ops).completed = false := by
    cases h : (runOps cs ops).completed
    · rfl
    · exact absurd h hc
  have hmem : (runOps cs ops).data.getLast?.getD [] ∈ (runOps cs ops).data := by
    rw [List.getLast?_eq_getLast_of_ne_nil hne]
    simpa using List.getLast_mem hne
  have := hfull hcf _ hmem
  omega

/-- Witness for the amended C4: `chunk_size = 2`, append `[1]`, complete —
every non-last chunk is full, and since the single frozen chunk `[1]` is
short, `completed` is indeed true. -/
theorem runOps_only_last_short_witness :
    (∀ c ∈ (runOps 2 [WrapperOp.append [1], WrapperOp.complete]).data.dropLast,
      c.length = 2) ∧
    ((runOps 2 [WrapperOp.append [1], WrapperOp.complete]).data ≠ [] →
      ((runOps 2 [WrapperOp.append [1],
          WrapperOp.complete]).data.getLast?.getD []).length < 2 →
      (runOps 2 [WrapperOp.append [1], WrapperOp.complete]).completed = true) :=
  runOps_only_last_short 2 [WrapperOp.append [1], WrapperOp.complete]
    (by decide)

/-- C4 counterexample to the claimed iff.  Appending exactly `chunk_size`
bytes and then completing yields `completed = true` while the last chunk has
length exactly `chunk_size` (it is not shorter): "the last chunk is shorter
than chunk_size iff completed" fails in the right-to-left direction. -/
theorem runOps_last_short_iff_counterexample :
    ¬ ((((runOps 2 [WrapperOp.append [1, 2], WrapperOp.complete]).data.getLast?.getD
          []).length < 2) ↔
        (runOps 2 [WrapperOp.append [1, 2], WrapperOp.complete]).completed = true) := by
  decide

/-! ## Seek (`MVecBytesReader::seek` and `MVecU8Reader::seek`) -/

/-- `std::io::SeekFrom`.  `Start` carries a `u64`, the other two an `i64`. -/
inductive SeekFrom where
  | start (n : Nat)
  | current (off : Int)
  | fromEnd (off : Int)
deriving DecidableEq

/-- The only error kind either `seek` implementation produces
(`ErrorKind::Unsupported`). -/
inductive SeekError where
  | unsupported
deriving DecidableEq

/-- Reinterpretation of a `u64` value as an `i64` (`self.pos as i64`):
values at or above 2^63 become negative. -/
def u64AsI64 (n : Nat) : Int :=
  if n < 9223372036854775808 then (n : Int)
  else (n : Int) - 18446744073709551616

/-- Wrapping `i64` addition (`self.pos as i64 + off` in release mode):
the mathematical sum reduced into the `i64` range modulo 2^64. -/
def i64AddWrap (a b : Int) : Int :=
  (a + b + 9223372036854775808) % 18446744073709551616
    - 9223372036854775808

/-- Reinterpretation of an `i64` value as a `u64` (`(..) as u64`). -/
def i64AsU64 (x : Int) : Nat :=
  (x % 18446744073709551616).toNat

/-- `MVecBytesReader::seek` (src/reader/mutex_vec_bytes.rs lines 239-255).
`Start(p)` installs `p`; `Current(off)` computes
`(self.pos as i64 + off) as u64`; `End(_)` fails with `Unsupported`.  The
function returns the new position, which the implementation both stores in
`self.pos` and returns.  It is a pure computation: it never blocks and never
waits for data to reach the new position. -/
def MVecBytesReader.seek (pos : Nat) : SeekFrom → Except SeekError Nat
  | .start p => Except.ok p
  | .current off => Except.ok (i64AsU64 (i64AddWrap (u64AsI64 pos) off))
  | .fromEnd _ => Except.error SeekError.unsupported

/-- `MVecU8Reader::seek` (src/reader/mutex_vec_u8.rs lines 97-112), textually
identical to `MVecBytesReader::seek`. -/
def MVecU8Reader.seek (pos : Nat) : SeekFrom → Except SeekError Nat
  | .start p => Except.ok p
  | .current off => Except.ok (i64AsU64 (i64AddWrap (u64AsI64 pos) off))
  | .fromEnd _ => Except.error SeekError.unsupported

/-- C5.  Seek contract: `Start(n)` sets the position to `n` and returns it;
`Current(d)` is equivalent to `Start(position + d)` whenever `position + d`
is representable as a `u64`; `End(_)` always fails with `Unsupported`.
The embedding of `seek` is a total function on the reader position: it does
not touch the buffer and cannot block or wait for data. -/
theorem mvecBytesSeek_contract (pos n : Nat) (d m : Int)
    (hpos : pos < 18446744073709551616)
    (hd1 : -9223372036854775808 ≤ d)
    (hd2 : d < 9223372036854775808)
    (hlo : 0 ≤ (pos : Int) + d)
    (hhi : (pos : Int) + d < 18446744073709551616) :
    MVecBytesReader.seek pos (SeekFrom.start n) = Except.ok n ∧
    MVecBytesReader.seek pos (SeekFrom.current d)
      = MVecBytesReader.seek pos (SeekFrom.start ((pos : Int) + d).toNat) ∧
    MVecBytesReader.seek pos (SeekFrom.fromEnd m)
      = Except.error SeekError.unsupported := by
  refine ⟨rfl, ?_, rfl⟩
  simp only [MVecBytesReader.seek, u64AsI64, i64AddWrap, i64AsU64]
  congr 1
  split_ifs with h
  · omega
  · omega

/-- Witness for C5 at `pos = 10`, `d = -3`. -/
theorem mvecBytesSeek_contract_witness :
    MVecBytesReader.seek 10 (SeekFrom.start 5) = Except.ok 5 ∧
    MVecBytesReader.seek 10 (SeekFrom.current (-3))
      = MVecBytesReader.seek 10 (SeekFrom.start ((10 : Int) + -3).toNat) ∧
    MVecBytesReader.seek 10 (SeekFrom.fromEnd 0)
      = Except.error SeekError.unsupported :=
  mvecBytesSeek_contract 10 5 (-3) 0 (by decide) (by decide) (by decide)
    (by decide) (by decide)

/-- C10.  Seeking with `Current(d)` where `position + d` is negative does
not error and does not clamp: the negative `i64` sum is cast to `u64`, so
the call returns `Ok` with the wrapped position `position + d + 2^64`, a
value of at least 2^63 (hence "near 2^64").  Both readers behave
identically. -/
theorem seek_negative_current_wraps (pos : Nat) (d : Int)
    (hpos : pos < 18446744073709551616)
    (hd1 : -9223372036854775808 ≤ d)
    (hneg : (pos : Int) + d < 0) :
    MVecBytesReader.seek pos (SeekFrom.current d)
      = Except.ok ((pos : Int) + d + 18446744073709551616).toNat ∧
    MVecU8Reader.seek pos (SeekFrom.current d)
      = Except.ok ((pos : Int) + d + 18446744073709551616).toNat ∧
    9223372036854775808 ≤ ((pos : Int) + d + 18446744073709551616).toNat := by
  refine ⟨?_, ?_, by omega⟩ <;>
  · simp only [MVecBytesReader.seek, MVecU8Reader.seek, u64AsI64, i64AddWrap,
      i64AsU64]
    congr 1
    split_ifs with h
    · omega
    · omega

/-- Witness for C10 at `pos = 0`, `d = -1`. -/
theorem seek_negative_current_wraps_witness :
    MVecBytesReader.seek 0 (SeekFrom.current (-1))
      = Except.ok ((0 : Int) + -1 + 18446744073709551616).toNat ∧
    MVecU8Reader.seek 0 (SeekFrom.current (-1))
      = Except.ok ((0 : Int) + -1 + 18446744073709551616).toNat ∧
    9223372036854775808 ≤ ((0 : Int) + -1 + 18446744073709551616).toNat :=
  seek_negative_current_wraps 0 (-1) (by decide) (by decide) (by decide)

/-! ## Read (`MVecBytesReader::read`, src/reader/mutex_vec_bytes.rs 142-237) -/

/-- Result of one `read` call.  `ok bytes newPos` is `Ok(bytes.len())` with
`bytes` the data copied into the destination buffer and `newPos` the updated
`self.pos`; `blocks` is the `condvar.wait` path (no data available, download
neither completed nor cancelled); `panics` marks a path that panics at
runtime (an out-of-range slice index, or a `usize` subtraction that
overflows and then makes the subsequent slice index out of range). -/
inductive ReadResult where
  | ok (bytes : List Nat) (newPos : Nat)
  | blocks
  | panics
deriving DecidableEq

/-- One iteration of the middle-chunk copy loop
(`for chunk in middle_chunks { .. }`): append the whole chunk to the bytes
copied so far, panicking (`none`) if the destination range
`buf[offset..offset + len]` would exceed the buffer length `n`. -/
def copyStep (n : Nat) (acc : Option (List Nat)) (c : List Nat) :
    Option (List Nat) :=
  match acc with
  | none => none
  | some a => if n < a.length + c.length then none else some (a ++ c)

/-- `MVecBytesReader::read` over a snapshot of the shared state: `data` is
the frozen chunk list, `completed` the `download_completed` flag,
`cancelled` the cancellation token, `pos` the reader position `self.pos`,
and `n` the destination buffer length `buf.len()`.  Mirrors the source:
the availability loop (returning EOF on completion or cancellation,
otherwise waiting), the chunk index/offset computation with the end index
clamped to `data.len()`, and the three copy phases (start chunk, middle
chunks, end chunk).  `Bytes` handles cloned out of the lock are the chunk
lists themselves; `self.pos += offset` is the `newPos` of the result. -/
def MVecBytesReader.read (data : List (List Nat)) (chunkSize : Nat)
    (completed cancelled : Bool) (pos n : Nat) : ReadResult :=
  if data.length * chunkSize ≤ pos then
    if completed || cancelled then ReadResult.ok [] pos else ReadResult.blocks
  else
    let csi := pos / chunkSize
    let cso := pos % chunkSize
    let cei0 := (pos + n) / chunkSize
    let ceo0 := (pos + n) % chunkSize
    let cei := if data.length ≤ cei0 then data.length else cei0
    let ceo := if data.length ≤ cei0 then 0 else ceo0
    let startChunk := data.getD csi []
    if csi = cei then
      if min ceo startChunk.length < cso then ReadResult.panics
      else
        let len := min ceo startChunk.length - cso
        if n < len then ReadResult.panics
        else ReadResult.ok ((startChunk.drop cso).take len) (pos + len)
    else
      if startChunk.length < cso then ReadResult.panics
      else if n < startChunk.length - cso then ReadResult.panics
      else
        let middle := (data.drop (csi + 1)).take (cei - (csi + 1))
        match middle.foldl (copyStep n) (some (startChunk.drop cso)) with
        | none => ReadResult.panics
        | some out2 =>
          if csi < cei ∧ 0 < ceo then
            let endChunk := data.getD cei []
            let l := min ceo endChunk.length
            if n < out2.length + l then ReadResult.panics
            else ReadResult.ok (out2 ++ endChunk.take l) (pos + out2.length + l)
          else ReadResult.ok out2 (pos + out2.length)

/-! ### Helper lemmas for the read proofs -/

/-- Bridge from the `dropLast` form of "all chunks except possibly the last
are full" to the indexed form. -/
theorem dropLast_full_getD (data : List (List Nat)) (cs : Nat)
    (h : ∀ c ∈ data.dropLast, c.length = cs) :
    ∀ i, i + 1 < data.length → (data.getD i []).length = cs := by
  intro i hi
  have hlt : i < data.dropLast.length := by
    simp only [List.length_dropLast]
    omega
  have h2 : data.dropLast.getD i [] = data.getD i [] := by
    rw [List.getD_eq_getElem?_getD, List.getD_eq_getElem?_getD,
      List.getElem?_dropLast, if_pos (by omega)]
  refine h _ ?_
  rw [← h2, List.getD_eq_getElem _ _ hlt]
  exact List.getElem_mem hlt

/-- Dropping `k` full chunks' worth of bytes from the flattened stream drops
exactly the first `k` chunks. -/
theorem flatten_drop_full (cs : Nat) :
    ∀ (data : List (List Nat)) (k : Nat), k ≤ data.length →
      (∀ i, i < k → (data.getD i []).length = cs) →
      data.flatten.drop (k * cs) = (data.drop k).flatten := by
  intro data k
  induction k generalizing data with
  | zero => intro _ _; simp
  | succ k ih =>
    intro hk hfull
    match data with
    | [] => simp at hk
    | c :: rest =>
      have hc : c.length = cs := hfull 0 (Nat.succ_pos k)
      have hcs_le : c.length ≤ (k + 1) * cs := by
        rw [hc]
        calc cs = 1 * cs := (Nat.one_mul cs).symm
        _ ≤ (k + 1) * cs := Nat.mul_le_mul_right cs (by omega)
      rw [List.flatten_cons, List.drop_append_eq_append_drop,
        List.drop_eq_nil_of_le hcs_le, List.nil_append]
      have harg : (k + 1) * cs - c.length = k * cs := by
        rw [hc]
        calc (k + 1) * cs - cs = k * cs + cs - cs := by rw [Nat.succ_mul]
        _ = k * cs := by omega
      rw [harg, List.drop_succ_cons]
      refine ih rest (by simpa using hk) ?_
      intro i hik
      have := hfull (i + 1) (by omega)
      simpa using this

/-- Decomposition of the flattened stream at an arbitrary in-range position:
dropping `pos` bytes leaves the tail of the chunk containing `pos` followed
by the remaining chunks, provided the chunks before it are full and the
in-chunk offset does not exceed that chunk's length. -/
theorem flatten_drop_pos (cs : Nat) (hcs : 0 < cs) (data : List (List Nat))
    (pos : Nat) (hlt : pos < data.length * cs)
    (hfull : ∀ i, i + 1 < data.length → (data.getD i []).length = cs)
    (hcso : pos % cs ≤ (data.getD (pos / cs) []).length) :
    data.flatten.drop pos
      = (data.getD (pos / cs) []).drop (pos % cs)
        ++ (data.drop (pos / cs + 1)).flatten := by
  have hcsilt : pos / cs < data.length := (Nat.div_lt_iff_lt_mul hcs).mpr hlt
  have hdm : cs * (pos / cs) + pos % cs = pos := Nat.div_add_mod pos cs
  have hpre : ∀ i, i < pos / cs → (data.getD i []).length = cs := by
    intro i hi
    exact hfull i (by omega)
  have h1 : data.flatten.drop ((pos / cs) * cs) = (data.drop (pos / cs)).flatten :=
    flatten_drop_full cs data (pos / cs) (le_of_lt hcsilt) hpre
  have h2 : data.drop (pos / cs) = data.getD (pos / cs) [] :: data.drop (pos / cs + 1) := by
    rw [List.getD_eq_getElem _ _ hcsilt]
    exact List.drop_eq_getElem_cons hcsilt
  have h3 : data.flatten.drop pos
      = (data.flatten.drop ((pos / cs) * cs)).drop (pos % cs) := by
    rw [List.drop_drop]
    congr 1
    rw [Nat.mul_comm] at hdm
    omega
  rw [h3, h1, h2, List.flatten_cons, List.drop_append_eq_append_drop,
    Nat.sub_eq_zero_of_le hcso, List.drop_zero]

/-- The middle-chunk copy loop never recovers from a panic. -/
theorem copyStep_foldl_none (n : Nat) :
    ∀ ms : List (List Nat), ms.foldl (copyStep n) none = none := by
  intro ms
  induction ms with
  | nil => rfl
  | cons c rest ih => simpa [copyStep] using ih

/-- If the middle-chunk copy loop succeeds, the copied bytes are the input
followed by the flattened middle chunks, and (unless the loop did not run at
all) the total stays within the destination buffer length. -/
theorem copyStep_foldl_spec (n : Nat) :
    ∀ (ms : List (List Nat)) (a out2 : List Nat),
      ms.foldl (copyStep n) (some a) = some out2 →
      out2 = a ++ ms.flatten ∧ (out2 = a ∨ out2.length ≤ n) := by
  intro ms
  induction ms with
  | nil =>
    intro a out2 h
    simp only [List.foldl_nil] at h
    obtain rfl := Option.some_injective _ h
    exact ⟨by simp, Or.inl rfl⟩
  | cons c rest ih =>
    intro a out2 h
    simp only [List.foldl_cons, copyStep] at h
    by_cases hn : n < a.length + c.length
    · rw [if_pos hn, copyStep_foldl_none n rest] at h
      exact Option.noConfusion h
    · rw [if_neg hn] at h
      obtain ⟨h1, h2⟩ := ih (a ++ c) out2 h
      refine ⟨by simp [h1, List.append_assoc], Or.inr ?_⟩
      rcases h2 with rfl | hle
      · simpa using Nat.le_of_not_lt hn
      · exact hle

/-- Taking at most the length of the left part of an append only reads the
left part. -/
theorem take_append_left_of_le (A B : List Nat) (k : Nat) (hk : k ≤ A.length) :
    (A ++ B).take k = A.take k := by
  rw [List.take_append_eq_append_take, Nat.sub_eq_zero_of_le hk,
    List.take_zero, List.append_nil]

/-- Taking the left part plus `k` more bytes of an append. -/
theorem take_append_add (A B : List Nat) (k : Nat) :
    (A ++ B).take (A.length + k) = A ++ B.take k := by
  rw [List.take_append_eq_append_take, List.take_of_length_le (by omega),
    Nat.add_sub_cancel_left]

/-- C1.  Reader fidelity: on any buffer state satisfying the chunk-shape
invariant (all chunks except possibly the last exactly `chunk_size` long,
`chunk_size` positive — every state reachable through `append_data` and
`complete` satisfies it), a `read` that returns `Ok` with a non-zero byte
count returns at most `n` bytes, those bytes are exactly bytes
`[pos, pos + k)` of the logical stream (the concatenation of the frozen
chunks), and the position advances from `pos` to `pos + k`. -/
theorem mvecRead_fidelity (data : List (List Nat)) (cs : Nat)
    (completed cancelled : Bool) (pos n : Nat) (out : List Nat) (pos' : Nat)
    (hcs : 0 < cs)
    (hfull : ∀ c ∈ data.dropLast, c.length = cs)
    (hres : MVecBytesReader.read data cs completed cancelled pos n
      = ReadResult.ok out pos')
    (hnz : out ≠ []) :
    out.length ≤ n ∧
    out = (data.flatten.drop pos).take out.length ∧
    pos' = pos + out.length := by
  clear hnz
  have hfullIdx := dropLast_full_getD data cs hfull
  unfold MVecBytesReader.read at hres
  by_cases hwait : data.length * cs ≤ pos
  · rw [if_pos hwait] at hres
    split_ifs at hres
    injection hres with h1 h2
    subst h1
    subst h2
    refine ⟨Nat.zero_le n, by simp, by simp⟩
  · rw [if_neg hwait] at hres
    push_neg at hwait
    dsimp only at hres
    have hdm1 := Nat.div_add_mod pos cs
    have hdm2 := Nat.div_add_mod (pos + n) cs
    have hmod1 : pos % cs < cs := Nat.mod_lt pos hcs
    have hcsilt : pos / cs < data.length := (Nat.div_lt_iff_lt_mul hcs).mpr hwait
    have hdivle : pos / cs ≤ (pos + n) / cs :=
      Nat.div_le_div_right (Nat.le_add_right pos n)
    set CSI := pos / cs with hCSI
    set CSO := pos % cs with hCSO
    set CEI0 := (pos + n) / cs with hCEI0
    set CEO0 := (pos + n) % cs with hCEO0
    set CEI := if data.length ≤ CEI0 then data.length else CEI0 with hCEI
    set CEO := if data.length ≤ CEI0 then 0 else CEO0 with hCEO
    set SC := data.getD CSI [] with hSC
    by_cases hcase : CSI = CEI
    · -- single-chunk read
      rw [if_pos hcase] at hres
      have hnoclamp : ¬ data.length ≤ CEI0 := by
        intro hcl
        rw [hCEI, if_pos hcl] at hcase
        omega
      have hCEIe : CEI = CEI0 := by rw [hCEI, if_neg hnoclamp]
      have hCEOe : CEO = CEO0 := by rw [hCEO, if_neg hnoclamp]
      have hceieq : CEI0 = CSI := by omega
      have hceo_eq : CEO0 = CSO + n := by
        rw [hceieq] at hdm2
        omega
      split_ifs at hres with hp1 hp2
      injection hres with hout hpos
      push_neg at hp1 hp2
      have hcso_le : CSO ≤ SC.length :=
        le_trans hp1 (Nat.min_le_right CEO SC.length)
      have hlen_le : min CEO SC.length - CSO ≤ SC.length - CSO := by
        have := Nat.min_le_right CEO SC.length
        omega
      have houtlen : out.length = min CEO SC.length - CSO := by
        rw [← hout]
        simp only [List.length_take, List.length_drop]
        omega
      have hdecomp : data.flatten.drop pos
          = SC.drop CSO ++ (data.drop (CSI + 1)).flatten := by
        rw [hSC, hCSI, hCSO]
        exact flatten_drop_pos cs hcs data pos hwait hfullIdx
          (by rw [← hCSO, ← hCSI, ← hSC]; exact hcso_le)
      refine ⟨?_, ?_, ?_⟩
      · have := Nat.min_le_left CEO SC.length
        rw [houtlen, hCEOe] at *
        omega
      · rw [hdecomp, houtlen,
          take_append_left_of_le _ _ _ (by simp only [List.length_drop]; omega),
          hout]
      · rw [← hpos, houtlen]
    · -- multi-chunk read
      rw [if_neg hcase] at hres
      have hcei_ge : CSI ≤ CEI := by
        rw [hCEI]
        split_ifs with h
        · exact le_of_lt hcsilt
        · exact hdivle
      have hlt2 : CSI < CEI := lt_of_le_of_ne hcei_ge hcase
      by_cases hp1 : SC.length < CSO
      · rw [if_pos hp1] at hres
        simp at hres
      rw [if_neg hp1] at hres
      by_cases hp2 : n < SC.length - CSO
      · rw [if_pos hp2] at hres
        simp at hres
      rw [if_neg hp2] at hres
      push_neg at hp1 hp2
      rcases hfold : ((data.drop (CSI + 1)).take (CEI - (CSI + 1))).foldl
          (copyStep n) (some (SC.drop CSO)) with _ | out2
      · rw [hfold] at hres
        simp at hres
      rw [hfold] at hres
      dsimp only at hres
      obtain ⟨hout2, hlen2⟩ := copyStep_foldl_spec n _ _ _ hfold
      have hdecomp : data.flatten.drop pos
          = SC.drop CSO ++ (data.drop (CSI + 1)).flatten := by
        rw [hSC, hCSI, hCSO]
        exact flatten_drop_pos cs hcs data pos hwait hfullIdx
          (by rw [← hCSO, ← hCSI, ← hSC]; exact hp1)
      have hsplit2 : (data.drop (CSI + 1)).flatten
          = ((data.drop (CSI + 1)).take (CEI - (CSI + 1))).flatten
            ++ (data.drop CEI).flatten := by
        have hdd : (data.drop (CSI + 1)).drop (CEI - (CSI + 1)) = data.drop CEI := by
          rw [List.drop_drop]
          congr 1
          omega
        rw [← hdd, ← List.flatten_append, List.take_append_drop]
      have hshape0 : data.flatten.drop pos = out2 ++ (data.drop CEI).flatten := by
        rw [hdecomp, hsplit2, hout2, List.append_assoc]
      by_cases hend : CSI < CEI ∧ 0 < CEO
      · -- an end chunk is copied
        rw [if_pos hend] at hres
        have hnoclamp : ¬ data.length ≤ CEI0 := by
          intro hcl
          rw [hCEO, if_pos hcl] at hend
          omega
        have hceilt : CEI < data.length := by
          rw [hCEI, if_neg hnoclamp]
          omega
        have hEC : data.drop CEI = data.getD CEI [] :: data.drop (CEI + 1) := by
          rw [List.getD_eq_getElem _ _ hceilt]
          exact List.drop_eq_getElem_cons hceilt
        by_cases hp3 : n < out2.length + min CEO (data.getD CEI []).length
        · rw [if_pos hp3] at hres
          simp at hres
        rw [if_neg hp3] at hres
        injection hres with hout hpos
        push_neg at hp3
        have hl_le : min CEO (data.getD CEI []).length
            ≤ (data.getD CEI []).length := Nat.min_le_right _ _
        have houtlen : out.length
            = out2.length + min CEO (data.getD CEI []).length := by
          rw [← hout]
          simp only [List.length_append, List.length_take]
          omega
        refine ⟨?_, ?_, ?_⟩
        · omega
        · rw [hshape0, hEC, List.flatten_cons, houtlen, ← hout,
            take_append_add,
            take_append_left_of_le _ _ _ hl_le]
        · rw [← hpos, houtlen]
          omega
      · -- no end chunk
        rw [if_neg hend] at hres
        injection hres with hout hpos
        have hn0 : SC.length - CSO ≤ n := hp2
        refine ⟨?_, ?_, ?_⟩
        · rcases hlen2 with heq | hle
          · rw [← hout, heq]
            simp only [List.length_drop]
            omega
          · rw [← hout]
            exact hle
        · rw [hshape0, ← hout, List.take_left]
        · rw [← hpos, ← hout]

/-- Length of the flattened stream when all chunks except the last are
full: `(chunk_count - 1) * chunk_size` plus the last chunk's length. -/
theorem flatten_length_full (cs : Nat) :
    ∀ data : List (List Nat), data ≠ [] →
      (∀ i, i + 1 < data.length → (data.getD i []).length = cs) →
      data.flatten.length
        = (data.length - 1) * cs + (data.getD (data.length - 1) []).length := by
  intro data
  induction data with
  | nil => intro h _; exact absurd rfl h
  | cons c rest ih =>
    intro _ hfull
    cases rest with
    | nil => simp
    | cons d rest2 =>
      have hc : c.length = cs := hfull 0 (by simp)
      have hrec := ih (by simp) (fun i hi => by
        have := hfull (i + 1) (by simp only [List.length_cons] at hi ⊢; omega)
        simpa using this)
      simp only [List.flatten_cons, List.length_append, List.length_cons] at hrec ⊢
      rw [hc, hrec]
      have h1 : rest2.length + 1 + 1 - 1 = rest2.length + 1 := by omega
      have h2 : rest2.length + 1 - 1 = rest2.length := by omega
      rw [h1, h2, List.getD_cons_succ, Nat.succ_mul]
      omega

/-- C2 amended.  If `completed = true` and `position ≥ produced_bytes`
(the total number of bytes in the frozen chunks), and moreover the position
is exactly `produced_bytes` or at least `chunk_count * chunk_size`, then
`read` returns `Ok(0)` immediately — no bytes copied, position unchanged,
no blocking.  The proviso is forced by `mvecRead_eof_counterexample`: when
the last chunk is short, a position strictly inside the gap
`(produced_bytes, chunk_count * chunk_size)` makes `read` panic on a
`usize` subtraction overflow instead of returning `Ok(0)`. -/
theorem mvecRead_eof (data : List (List Nat)) (cs : Nat) (cancelled : Bool)
    (pos n : Nat) (hcs : 0 < cs)
    (hfull : ∀ c ∈ data.dropLast, c.length = cs)
    (hle : ∀ c ∈ data, c.length ≤ cs)
    (hpos : data.flatten.length ≤ pos)
    (hgap : pos = data.flatten.length ∨ data.length * cs ≤ pos) :
    MVecBytesReader.read data cs true cancelled pos n = ReadResult.ok [] pos := by
  have hfullIdx := dropLast_full_getD data cs hfull
  unfold MVecBytesReader.read
  by_cases hwait : data.length * cs ≤ pos
  · rw [if_pos hwait]
    simp
  · rw [if_neg hwait]
    push_neg at hwait
    dsimp only
    have hposL : pos = data.flatten.length := by
      rcases hgap with h | h
      · exact h
      · omega
    have hdne : data ≠ [] := by
      intro h
      subst h
      simp at hwait
    have hdl : 0 < data.length := List.length_pos.mpr hdne
    have hlen1 := flatten_length_full cs data hdne hfullIdx
    have hlastle : (data.getD (data.length - 1) []).length ≤ cs := by
      refine hle _ ?_
      rw [List.getD_eq_getElem _ _ (by omega)]
      exact List.getElem_mem _
    have hlastlt : (data.getD (data.length - 1) []).length < cs := by
      rcases Nat.lt_or_ge (data.getD (data.length - 1) []).length cs with h | h
      · exact h
      · exfalso
        have hEq : (data.getD (data.length - 1) []).length = cs :=
          le_antisymm hlastle h
        rw [hposL, hlen1, hEq] at hwait
        have hstep : (data.length - 1) * cs + cs = data.length * cs := by
          calc (data.length - 1) * cs + cs = (data.length - 1 + 1) * cs := by
                rw [Nat.succ_mul]
          _ = data.length * cs := by congr 1; omega
        omega
    have hdm : pos / cs = data.length - 1 ∧
        pos % cs = (data.getD (data.length - 1) []).length := by
      refine (Nat.div_mod_unique hcs).mpr ⟨?_, hlastlt⟩
      rw [hposL, hlen1, Nat.mul_comm cs (data.length - 1)]
      omega
    obtain ⟨hcsi, hcso⟩ := hdm
    rw [hcsi, hcso]
    by_cases hclamp : data.length ≤ (pos + n) / cs
    · -- the end index clamps to the chunk count: multi-chunk shape, no bytes
      simp only [hclamp, if_true]
      rw [if_neg (by omega : ¬ data.length - 1 = data.length)]
      rw [if_neg (lt_irrefl (data.getD (data.length - 1) []).length)]
      rw [Nat.sub_self, if_neg (Nat.not_lt_zero n)]
      have h11 : data.length - 1 + 1 = data.length := by omega
      rw [h11, List.drop_length data, List.take_nil, List.foldl_nil,
        List.drop_length (data.getD (data.length - 1) [])]
      dsimp only
      rw [if_neg (by simp : ¬ (data.length - 1 < data.length ∧ (0 : Nat) < 0))]
      simp
    · -- no clamp: the whole request stays inside the (short) last chunk
      have hgecsi : data.length - 1 ≤ (pos + n) / cs := by
        rw [← hcsi]
        exact Nat.div_le_div_right (Nat.le_add_right pos n)
      have hceilt := Nat.lt_of_not_le hclamp
      have hceieq : (pos + n) / cs = data.length - 1 := by omega
      have hposval : pos
          = (data.length - 1) * cs + (data.getD (data.length - 1) []).length := by
        rw [hposL, hlen1]
      have hmc : cs * (data.length - 1) = (data.length - 1) * cs :=
        Nat.mul_comm cs (data.length - 1)
      have hsum : (data.getD (data.length - 1) []).length + n < cs := by
        have hdm2 := Nat.div_add_mod (pos + n) cs
        rw [hceieq] at hdm2
        have hmod2 : (pos + n) % cs < cs := Nat.mod_lt _ hcs
        omega
      have hboth : (pos + n) / cs = data.length - 1 ∧
          (pos + n) % cs = (data.getD (data.length - 1) []).length + n :=
        (Nat.div_mod_unique hcs).mpr ⟨by omega, hsum⟩
      have hceoeq := hboth.2
      rw [if_neg hclamp, if_neg hclamp, hceieq, if_pos rfl, hceoeq,
        Nat.min_eq_right (Nat.le_add_right _ _),
        if_neg (lt_irrefl (data.getD (data.length - 1) []).length),
        Nat.sub_self, if_neg (Nat.not_lt_zero n)]
      simp

/-- State reached by `append_data(&[9]); complete()` at `chunk_size = 4`:
one frozen chunk `[9]`, one produced byte, `completed = true`. -/
def eofGapState : MVecBytesWrapper :=
  runOps 4 [WrapperOp.append [9], WrapperOp.complete]

/-- C2 counterexample.  In the reachable state with chunk list `[[9]]`,
`chunk_size = 4` and `completed = true`, the position `2` satisfies
`position ≥ produced_bytes = 1`, yet `read` with a 1-byte buffer panics
(`chunk_end_offset.min(chunk.len()) - chunk_start_offset` underflows)
instead of returning `Ok(0)`. -/
theorem mvecRead_eof_counterexample :
    eofGapState.completed = true ∧
    eofGapState.data.flatten.length ≤ 2 ∧
    MVecBytesReader.read eofGapState.data eofGapState.chunkSize
      eofGapState.completed false 2 1 = ReadResult.panics := by
  decide

/-- Witness for the amended C2: chunk list `[[1]]`, `chunk_size = 2`,
completed, reading at position `1 = produced_bytes` returns `Ok(0)`. -/
theorem mvecRead_eof_witness :
    MVecBytesReader.read [[1]] 2 true false 1 5 = ReadResult.ok [] 1 :=
  mvecRead_eof [[1]] 2 false 1 5 (by decide) (by decide) (by decide)
    (by decide) (by decide)

/-- Witness for C1: buffer `[[1,2],[3,4],[5]]` with `chunk_size = 2`, reading
3 bytes from position 1 yields bytes `[2,3,4]` of the stream and advances the
position to 4. -/
theorem mvecRead_fidelity_witness :
    ([2, 3, 4] : List Nat).length ≤ 3 ∧
    ([2, 3, 4] : List Nat)
      = (([[1, 2], [3, 4], [5]] : List (List Nat)).flatten.drop 1).take
          ([2, 3, 4] : List Nat).length ∧
    (4 : Nat) = 1 + ([2, 3, 4] : List Nat).length :=
  mvecRead_fidelity [[1, 2], [3, 4], [5]] 2 false false 1 3 [2, 3, 4] 4
    (by decide) (by decide) (by decide) (by decide)

/-! ## Player (src/player.rs) -/

/-- `PlayerEvent` (src/events.rs), plus the `Emptied` variant that
`Player::clear` emits in src/player.rs (line 355). -/
inductive PlayerEvent where
  | play
  | pause
  | waiting
  | playing
  | ended
  | emptied
  | durationChange
  | volumeChange
  | seeking
  | seeked
  | loadStart
  | loadedData
  | loadedMetadata
  | error
deriving DecidableEq

/-- An entry of the sink queue: a decoded source (carrying its cached total
duration) or the `EmptyCallback` sentinel appended after it. -/
inductive SinkItem where
  | source (duration : Option Nat)
  | sentinel
deriving DecidableEq

/-- The `Player` state relevant to the claims: the media-element flags
`empty`, `ended`, `autoplay` (atomic booleans), the cached
`PlayerControl::duration`, whether the current sink is paused, whether a
player-event callback is registered (`callback: Option<Box<dyn Fn ..>>`),
the sink queue contents, and the sequence of events delivered to the
registered callback. -/
structure PlayerState where
  empty : Bool
  ended : Bool
  autoplay : Bool
  duration : Option Nat
  sinkPaused : Bool
  hasCallback : Bool
  sinkQueue : List SinkItem
  log : List PlayerEvent
deriving DecidableEq

/-- `Player::new`: fresh paused sink, no duration, `empty = true`,
`ended = false`, `autoplay = false`, no callback registered. -/
def Player.new : PlayerState :=
  { empty := true, ended := false, autoplay := false, duration := none,
    sinkPaused := true, hasCallback := false, sinkQueue := [], log := [] }

/-- `Player::set_callback`: installs the player-event callback. -/
def Player.set_callback (s : PlayerState) : PlayerState :=
  { s with hasCallback := true }

/-- `Player::emit` (src/player.rs lines 306-310): invokes the callback with
the event when one is registered, otherwise does nothing.  The log records
the events delivered to the callback. -/
def Player.emit (s : PlayerState) (e : PlayerEvent) : PlayerState :=
  if s.hasCallback then { s with log := s.log ++ [e] } else s

/-- `Player::play`: resume the sink, set `autoplay = true`, emit `Play`. -/
def Player.play (s : PlayerState) : PlayerState :=
  Player.emit { s with sinkPaused := false, autoplay := true } PlayerEvent.play

/-- `Player::pause`: pause the sink, set `autoplay = false`, emit `Pause`. -/
def Player.pause (s : PlayerState) : PlayerState :=
  Player.emit { s with sinkPaused := true, autoplay := false } PlayerEvent.pause

/-- `Player::clear` (src/player.rs lines 318-362): stop the sink, rebuild a
fresh sink (paused unless `autoplay`), reset the cached duration (keeping
the previous value), drop loader/condvar/cancellation state, reset `ended`,
then emit `Emptied` iff `empty` was false (setting `empty = true`) and
`DurationChange` iff the previous duration was not `None`. -/
def Player.clear (s : PlayerState) : PlayerState :=
  let previousDuration := s.duration
  let s1 := { s with duration := none, sinkPaused := !s.autoplay,
                     sinkQueue := [], ended := false }
  let s2 := if s1.empty = false then
      Player.emit { s1 with empty := true } PlayerEvent.emptied
    else s1
  if previousDuration.isSome then Player.emit s2 PlayerEvent.durationChange
  else s2

/-- The private `Player::load` (src/player.rs lines 169-200): clear when not
empty, mark non-empty, install the source's total duration, emit
`DurationChange`, `LoadedMetadata`, `LoadedData`, then append the source and
the `EmptyCallback` sentinel to the sink. -/
def Player.loadCore (s : PlayerState) (srcDuration : Option Nat) : PlayerState :=
  let s1 := if s.empty = false then Player.clear s else s
  let s2 := { s1 with empty := false, duration := srcDuration }
  let s3 := Player.emit s2 PlayerEvent.durationChange
  let s4 := Player.emit s3 PlayerEvent.loadedMetadata
  let s5 := Player.emit s4 PlayerEvent.loadedData
  { s5 with sinkQueue := s5.sinkQueue ++ [SinkItem.source srcDuration,
      SinkItem.sentinel] }

/-- `Player::load_file`: clear when not empty (the inner `load` checks
again), decode the file, delegate to `load`.  The decoded source's total
duration is the parameter. -/
def Player.load_file (s : PlayerState) (srcDuration : Option Nat) : PlayerState :=
  let s1 := if s.empty = false then Player.clear s else s
  Player.loadCore s1 srcDuration

/-- The sentinel closure appended by `Player::load` (src/player.rs lines
192-197): `if let Some(ref cb) = *callback.read() { ended.store(true);
cb(Ended) }` — both the store to `ended` and the `Ended` event are guarded
by the presence of a registered callback. -/
def sentinelFire (s : PlayerState) : PlayerState :=
  if s.hasCallback then
    { s with ended := true, log := s.log ++ [PlayerEvent.ended] }
  else s

/-! ### Projection lemmas for the player operations -/

@[simp]
theorem emit_empty (s : PlayerState) (e : PlayerEvent) :
    (Player.emit s e).empty = s.empty := by
  unfold Player.emit; split_ifs <;> rfl

@[simp]
theorem emit_ended (s : PlayerState) (e : PlayerEvent) :
    (Player.emit s e).ended = s.ended := by
  unfold Player.emit; split_ifs <;> rfl

@[simp]
theorem emit_autoplay (s : PlayerState) (e : PlayerEvent) :
    (Player.emit s e).autoplay = s.autoplay := by
  unfold Player.emit; split_ifs <;> rfl

@[simp]
theorem emit_duration (s : PlayerState) (e : PlayerEvent) :
    (Player.emit s e).duration = s.duration := by
  unfold Player.emit; split_ifs <;> rfl

@[simp]
theorem emit_sinkPaused (s : PlayerState) (e : PlayerEvent) :
    (Player.emit s e).sinkPaused = s.sinkPaused := by
  unfold Player.emit; split_ifs <;> rfl

@[simp]
theorem emit_hasCallback (s : PlayerState) (e : PlayerEvent) :
    (Player.emit s e).hasCallback = s.hasCallback := by
  unfold Player.emit; split_ifs <;> rfl

@[simp]
theorem emit_sinkQueue (s : PlayerState) (e : PlayerEvent) :
    (Player.emit s e).sinkQueue = s.sinkQueue := by
  unfold Player.emit; split_ifs <;> rfl

@[simp]
theorem clear_sinkPaused (s : PlayerState) :
    (Player.clear s).sinkPaused = !s.autoplay := by
  unfold Player.clear
  dsimp only
  split_ifs <;> simp

@[simp]
theorem clear_autoplay (s : PlayerState) :
    (Player.clear s).autoplay = s.autoplay := by
  unfold Player.clear
  dsimp only
  split_ifs <;> simp

@[simp]
theorem clear_empty (s : PlayerState) :
    (Player.clear s).empty = true := by
  unfold Player.clear
  dsimp only
  split_ifs with h1 h2 <;> simp_all

theorem loadCore_sinkPaused (s : PlayerState) (d : Option Nat) :
    (Player.loadCore s d).sinkPaused
      = if s.empty then s.sinkPaused else !s.autoplay := by
  unfold Player.loadCore
  dsimp only
  cases hse : s.empty with
  | false => simp [hse]
  | true => simp [hse]

theorem load_file_sinkPaused (s : PlayerState) (d : Option Nat) :
    (Player.load_file s d).sinkPaused
      = if s.empty then s.sinkPaused else !s.autoplay := by
  unfold Player.load_file
  dsimp only
  cases hse : s.empty with
  | false =>
    rw [if_pos rfl, loadCore_sinkPaused]
    simp
  | true =>
    rw [if_neg (by decide), loadCore_sinkPaused, hse]

/-- C6 counterexample.  Load a source on a fresh player with no callback
registered, then let the sink drain and fire the sentinel: `ended` stays
`false` (and no `Ended` event is produced), so `ended()` does not return
true after playback completes.  The claim that the sentinel unconditionally
sets `ended = true` is false: the store is inside the `if let` on the
callback slot. -/
theorem sentinel_no_callback_counterexample :
    (sentinelFire (Player.loadCore Player.new none)).ended = false ∧
    (sentinelFire (Player.loadCore Player.new none)).log = [] := by
  decide

/-- C6 amended.  When a player-event callback is registered at the time the
sentinel fires, the sentinel sets `ended = true` and emits `Ended` (so
`ended()` returns true after playback completes); `Player::load` appends the
sentinel directly after the source.  Without a registered callback the
sentinel leaves the state unchanged. -/
theorem sentinel_sets_ended (s : PlayerState) (d : Option Nat)
    (hcb : s.hasCallback = true) :
    (sentinelFire s).ended = true ∧
    (sentinelFire s).log = s.log ++ [PlayerEvent.ended] ∧
    (Player.loadCore s d).sinkQueue
      = (if s.empty = false then Player.clear s else s).sinkQueue
        ++ [SinkItem.source d, SinkItem.sentinel] := by
  refine ⟨?_, ?_, ?_⟩
  · simp [sentinelFire, hcb]
  · simp [sentinelFire, hcb]
  · simp only [Player.loadCore, Player.emit]
    split_ifs <;> rfl

/-- Witness for the amended C6 at a concrete state with a callback. -/
theorem sentinel_sets_ended_witness :
    (sentinelFire (Player.set_callback Player.new)).ended = true ∧
    (sentinelFire (Player.set_callback Player.new)).log
      = (Player.set_callback Player.new).log ++ [PlayerEvent.ended] ∧
    (Player.loadCore (Player.set_callback Player.new) (some 10)).sinkQueue
      = (if (Player.set_callback Player.new).empty = false then
            Player.clear (Player.set_callback Player.new)
          else Player.set_callback Player.new).sinkQueue
        ++ [SinkItem.source (some 10), SinkItem.sentinel] :=
  sentinel_sets_ended (Player.set_callback Player.new) (some 10) rfl

/-- C7.  Autoplay invariant: `autoplay` is true after every `play()` and
false after every `pause()`; `clear` leaves the freshly rebuilt sink paused
iff `autoplay` is false; hence a source loaded (via `load_file`) right
after `play()` starts on an unpaused sink, and one loaded right after
`pause()` stays paused. -/
theorem autoplay_governs (s : PlayerState) (d : Option Nat) :
    (Player.play s).autoplay = true ∧
    (Player.pause s).autoplay = false ∧
    (Player.clear s).sinkPaused = !s.autoplay ∧
    (Player.load_file (Player.play s) d).sinkPaused = false ∧
    (Player.load_file (Player.pause s) d).sinkPaused = true := by
  refine ⟨?_, ?_, ?_, ?_, ?_⟩
  · simp [Player.play]
  · simp [Player.pause]
  · exact clear_sinkPaused s
  · rw [load_file_sinkPaused]
    simp [Player.play]
  · rw [load_file_sinkPaused]
    simp [Player.pause]

/-- C8.  Teardown event contract of `Player::clear`, for a player with a
registered callback: the events it emits are exactly `[Emptied]` when
`empty` was false on entry (none otherwise) followed by `[DurationChange]`
when the cached duration was not `None` (none otherwise) — in particular
each event is emitted iff its condition held, and `Emptied` precedes
`DurationChange` whenever both are emitted. -/
theorem clear_event_contract (s : PlayerState) (hcb : s.hasCallback = true) :
    (Player.clear s).log = s.log
      ++ (if s.empty then [] else [PlayerEvent.emptied])
      ++ (if s.duration.isSome then [PlayerEvent.durationChange] else []) := by
  unfold Player.clear Player.emit
  dsimp only
  split_ifs with h1 h2 h2 <;>
    simp_all [List.append_assoc]

/-- A concrete non-empty player state with a cached duration and a
registered callback, used to witness C8. -/
def clearExampleState : PlayerState :=
  { empty := false, ended := false, autoplay := true, duration := some 10,
    sinkPaused := false, hasCallback := true,
    sinkQueue := [SinkItem.source (some 10), SinkItem.sentinel],
    log := [PlayerEvent.play] }

/-- Witness for C8: clearing `clearExampleState` appends exactly
`[Emptied, DurationChange]` to the event log, in that order. -/
theorem clear_event_contract_witness :
    (Player.clear clearExampleState).log = clearExampleState.log
      ++ (if clearExampleState.empty then [] else [PlayerEvent.emptied])
      ++ (if clearExampleState.duration.isSome then [PlayerEvent.durationChange]
          else []) :=
  clear_event_contract clearExampleState rfl

/-! ## Downloader (src/loader/downloader.rs) -/

/-- `DownloadStatus` (src/loader/downloader.rs lines 11-21). -/
inductive DownloadStatus where
  | notStarted
  | downloading
  | completed
  | aborted
deriving DecidableEq

/-- The `Downloader` state relevant to the double-call guard: the
`download_called: AtomicBool` flag and the `status` mutex. -/
structure DownloaderState where
  downloadCalled : Bool
  status : DownloadStatus
deriving DecidableEq

/-- `Downloader::new`: `download_called = false`, status `NotStarted`. -/
def Downloader.new : DownloaderState :=
  { downloadCalled := false, status := DownloadStatus.notStarted }

/-- Result of the guarded prefix of `Downloader::download` (lines 132-146):
`download_called.swap(true)` returning true panics
(`"download() can only be called once"`); otherwise the flag is now set and
the status transitions to `Downloading`.  The HTTP request and the streaming
task that follow are independent of the guard and are not modelled. -/
inductive DownloadCall where
  | ok (s : DownloaderState)
  | panicked
deriving DecidableEq

def Downloader.download (s : DownloaderState) : DownloadCall :=
  if s.downloadCalled then DownloadCall.panicked
  else DownloadCall.ok
    { s with downloadCalled := true, status := DownloadStatus.downloading }

/-- C9.  `download()` runs at most once: a call that does not panic can only
happen with the `download_called` flag still clear (so at most one call ever
succeeds, and it is the one that transitions status to `Downloading`), it
leaves the flag set, and any later call on the resulting state panics — a
fatal programming error, not a recoverable `Err`. -/
theorem download_at_most_once (s s' : DownloaderState)
    (h : Downloader.download s = DownloadCall.ok s') :
    s.downloadCalled = false ∧
    s'.downloadCalled = true ∧
    s'.status = DownloadStatus.downloading ∧
    Downloader.download s' = DownloadCall.panicked := by
  unfold Downloader.download at h ⊢
  by_cases hc : s.downloadCalled
  · rw [if_pos hc] at h
    exact DownloadCall.noConfusion h
  · rw [if_neg hc] at h
    injection h with h1
    subst h1
    simp_all

/-- Witness for C9: the first call on a fresh downloader succeeds and
transitions to `Downloading`; the second call panics. -/
theorem download_at_most_once_witness :
    Downloader.new.downloadCalled = false ∧
    (⟨true, DownloadStatus.downloading⟩ : DownloaderState).downloadCalled = true ∧
    (⟨true, DownloadStatus.downloading⟩ : DownloaderState).status
      = DownloadStatus.downloading ∧
    Downloader.download ⟨true, DownloadStatus.downloading⟩
      = DownloadCall.panicked :=
  download_at_most_once Downloader.new ⟨true, DownloadStatus.downloading⟩
    (by decide)

end RemuAudio
